import Mathlib

/-!
Verification of the `one_server` file-sync core against its specification.

The definitions below are shallow embeddings of the Rust sources:
* `src/apps/file_sync_manager/log_observer.rs` — path extraction/translation
  (`extract_path_stream`, `handle_pathstring`), the watch cache
  (`SharedState::update_file_watchinfo`) and the modify-event handler
  (`LogObserver::inner_monitor`);
* `src/apps/file_sync_manager/dir_scanner.rs` — the scanner start/stop guards;
* `src/my_widgets/wrap_list.rs` — the diagnostic event buffer.

Rust strings are modelled as `List Char`, `IndexMap` as an association list in
insertion order (front = earliest inserted), and panics (`unwrap` on a failed
result) as `Option`/`Except` error values.
-/

namespace OneServer

/-! ## Path extraction and translation (`log_observer.rs`) -/

/-- Rust `char::is_whitespace` restricted to the whitespace characters that can
appear at the end of an FTP log line (space, tab, CR, LF).  Both the code side
and the spec side of every statement use this same predicate, so the exact
whitespace alphabet does not influence any claim. -/
def isRustWhitespace (c : Char) : Bool :=
  c == ' ' || c == '\t' || c == '\n' || c == '\r'

/-- Rust `str::trim_end`: remove trailing whitespace. -/
def trimEndWS (s : List Char) : List Char :=
  (s.reverse.dropWhile isRustWhitespace).reverse

/-- Rust `str::split_once(pat)`, keeping only the part after the first
occurrence of `pat`; `none` when `pat` does not occur.  (Source:
`line.split_once("STOR 226 ")` in `LogObserver::extract_path_stream`.) -/
def afterFirst (pat : List Char) : List Char → Option (List Char)
  | [] => if pat.isEmpty then some [] else none
  | c :: t =>
    if pat.isPrefixOf (c :: t) then some ((c :: t).drop pat.length)
    else afterFirst pat t

/-- The literal extraction marker from `extract_path_stream`. -/
def storMarker : List Char := "STOR 226 ".toList

/-- The per-line extraction of `extract_path_stream`: a line yields a raw path
exactly when `split_once("STOR 226 ")` succeeds; the raw path is the part after
the marker with trailing whitespace trimmed (`words.1.trim_end()`). -/
def extractLine (line : List Char) : Option (List Char) :=
  (afterFirst storMarker line).map trimEndWS

/-- One `(key, [from, to])` entry of `prefix_map_of_extract_path`, in the order
the `HashMap` iteration presents it.  (`from`/`to` are the Rust local names;
`from` is a Lean keyword, hence `fromVal`/`toVal`.) -/
structure MapEntry where
  key : List Char
  fromVal : List Char
  toVal : List Char
deriving DecidableEq, Repr

/-- The reserved key `"default"` of the fallback entry. -/
def defaultKey : List Char := "default".toList

/-- The matching test of the non-default translation loop, as one boolean
predicate (used to phrase "the first matching entry in iteration order"). -/
def matchPredB (path : List Char) (e : MapEntry) : Bool :=
  !(e.key == defaultKey) && e.fromVal.isPrefixOf path && !(e.fromVal == [])

/-- Fueled worker for `trimStartMatches`; each removal strips at least one
character, so `s.length` units of fuel always suffice. -/
def trimAux (pat : List Char) : Nat → List Char → List Char
  | 0, s => s
  | n + 1, s =>
    if !pat.isEmpty && pat.isPrefixOf s then trimAux pat n (s.drop pat.length)
    else s

/-- Rust `str::trim_start_matches(pat)`: every leading repetition of `pat` is
removed (an empty pattern removes nothing). -/
def trimStartMatches (pat s : List Char) : List Char :=
  trimAux pat s.length s

/-- Rust `str.replace('/', "\\").replace('+', " ")` at the top of
`LogObserver::handle_pathstring`. -/
def normalizePath (s : List Char) : List Char :=
  (s.map fun c => if c == '/' then '\\' else c).map fun c =>
    if c == '+' then ' ' else c

/-- The `for (_key, pair) in prefix_map.iter().filter(|(k, _)| *k != "default")`
loop of `handle_pathstring`: the first non-default entry whose non-empty
`from` is a prefix of `path` returns `format!("{}{}", to,
path.trim_start_matches(from))`. -/
def scanEntries (path : List Char) : List MapEntry → Option (List Char)
  | [] => none
  | e :: rest =>
    if e.key ≠ defaultKey then
      if e.fromVal.isPrefixOf path ∧ e.fromVal ≠ [] then
        some (e.toVal ++ trimStartMatches e.fromVal path)
      else scanEntries path rest
    else scanEntries path rest

/-- `prefix_map.get("default")` on the iteration-order list (keys of a
`HashMap` are unique, so the first hit is the entry). -/
def getDefault (entries : List MapEntry) : Option MapEntry :=
  entries.find? fun e => e.key == defaultKey

/-- Source: `LogObserver::handle_pathstring`, parameterised by the iteration
order in which the configuration `HashMap` presents its entries. -/
def handle_pathstring (entries : List MapEntry) (rawPath : List Char) : List Char :=
  let path := normalizePath rawPath
  match scanEntries path entries with
  | some replaced => replaced
  | none =>
    match getDefault entries with
    | some e => e.toVal ++ trimStartMatches e.fromVal path
    | none => path

/-- The record produced by `extract_path_stream` for one log line: the
translated path of the extracted raw path, when the line matches. -/
def extractRecord (entries : List MapEntry) (line : List Char) : Option (List Char) :=
  (extractLine line).map (handle_pathstring entries)

/-- Modelled from the claim's words (C1): the translation that *substitutes*
the first matching non-default entry's `from` prefix — i.e. replaces one
occurrence of the prefix — with the paired `to`, falling back to the `default`
entry's single-prefix substitution, else returning the path unchanged. -/
def translate_claim (entries : List MapEntry) (rawPath : List Char) : List Char :=
  let path := normalizePath rawPath
  match entries.find? (matchPredB path) with
  | some e => e.toVal ++ path.drop e.fromVal.length
  | none =>
    match getDefault entries with
    | some e =>
      e.toVal ++ (if e.fromVal.isPrefixOf path then path.drop e.fromVal.length else path)
    | none => path

/-- Modelled from the spec's words, amended (C1): as `translate_claim`, except
that the matched `from` value is stripped *repeatedly* from the front (every
leading repetition removed) before the paired `to` is prepended, for both
non-default and `default` entries. -/
def translate_amended (entries : List MapEntry) (rawPath : List Char) : List Char :=
  let path := normalizePath rawPath
  match entries.find? (matchPredB path) with
  | some e => e.toVal ++ trimStartMatches e.fromVal path
  | none =>
    match getDefault entries with
    | some e => e.toVal ++ trimStartMatches e.fromVal path
    | none => path

/-! ## Watch cache and modify-event handling (`log_observer.rs`) -/

/-- `FileWatchInfo { last_read_pos: u64, file_size: u64 }`. -/
structure FileWatchInfo where
  last_read_pos : Nat
  file_size : Nat
deriving DecidableEq, Repr

/-- The `files_watched: IndexMap<PathBuf, FileWatchInfo>` field, modelled as an
association list in insertion order (head = earliest-inserted entry). -/
abbrev WatchMap := List (String × FileWatchInfo)

/-- `IndexMap::contains_key`. -/
def containsKey (m : WatchMap) (p : String) : Bool :=
  m.any fun kv => kv.1 == p

/-- `IndexMap::get`. -/
def getInfo (m : WatchMap) (p : String) : Option FileWatchInfo :=
  (m.find? fun kv => kv.1 == p).map (·.2)

/-- `IndexMap::insert`: an existing key keeps its position and its old value is
returned; a new key is appended at the back (most recently inserted). -/
def imInsert (m : WatchMap) (p : String) (v : FileWatchInfo) :
    WatchMap × Option FileWatchInfo :=
  match m with
  | [] => ([(p, v)], none)
  | kv :: rest =>
    if kv.1 == p then ((p, v) :: rest, some kv.2)
    else
      let r := imInsert rest p v
      (kv :: r.1, r.2)

/-- Source: `SharedState::update_file_watchinfo`, with the
`std::fs::metadata(path).unwrap().len()` read passed in as `fsize`.  A resident
key keeps its `last_read_pos`, a fresh key starts at `0`; before inserting a
fresh key into a full map, `shift_remove_index(0)` drops the earliest-inserted
entry; the old value (from `IndexMap::insert`) is returned alongside. -/
def update_file_watchinfo (m : WatchMap) (p : String) (fsize : Nat)
    (maxFilesWatched : Nat) : WatchMap × Option FileWatchInfo :=
  let info : FileWatchInfo :=
    match getInfo m p with
    | some i => ⟨i.last_read_pos, fsize⟩
    | none => ⟨0, fsize⟩
  let m1 :=
    if ¬ containsKey m p ∧ m.length ≥ maxFilesWatched then m.drop 1 else m
  imInsert m1 p info

/-- Source: `SharedState::set_file_watchinfo` (a plain `IndexMap::insert`). -/
def set_file_watchinfo (m : WatchMap) (p : String) (info : FileWatchInfo) :
    WatchMap × Option FileWatchInfo :=
  imInsert m p info

/-- One `EventKind::Modify` iteration of `LogObserver::inner_monitor`,
abstracted over the metadata read (`meta`, `none` when `std::fs::metadata`
fails) and the observer status read at the mid-loop stop check (`stopped`).
`none` models a worker panic: `update_file_watchinfo` unwraps the metadata
result, and the following `.get(&path).unwrap()` unwraps the lookup.  On
success the result carries the new map, whether a scan was performed, and the
`(last_read_pos, file_size)` pair the scan decision was taken on; after a scan,
`set_file_watchinfo` commits `last_read_pos := file_size`. -/
def handleModify (m : WatchMap) (p : String) (meta : Option Nat)
    (maxFilesWatched : Nat) (stopped : Bool) :
    Option (WatchMap × Bool × FileWatchInfo) :=
  match meta with
  | none => none
  | some fsize =>
    let m1 := (update_file_watchinfo m p fsize maxFilesWatched).1
    match getInfo m1 p with
    | none => none
    | some info =>
      if stopped then some (m1, false, info)
      else if info.file_size > info.last_read_pos then
        some ((set_file_watchinfo m1 p ⟨info.file_size, info.file_size⟩).1, true, info)
      else some (m1, false, info)

/-- A run of handled modify events (path and observed metadata size each),
from a given cache state, while the observer keeps running. -/
def runModifySeq (maxFilesWatched : Nat) (evs : List (String × Nat))
    (m : WatchMap) : Option WatchMap :=
  match evs with
  | [] => some m
  | (p, sz) :: rest =>
    match handleModify m p (some sz) maxFilesWatched false with
    | none => none
    | some r => runModifySeq maxFilesWatched rest r.1

/-- A sequence of `update_file_watchinfo` upserts starting from the empty
cache (the shape quantified over in the eviction-bound property). -/
def upsertSeq (maxFilesWatched : Nat) (evs : List (String × Nat)) : WatchMap :=
  evs.foldl (fun m pe => (update_file_watchinfo m pe.1 pe.2 maxFilesWatched).1) []

/-! ## Sink failure in the modify handler (C2) -/

/-- The kinds of `MonitorEvent` the observer appends (`MonitorEventType`). -/
inductive MonitorEventType where
  | stopMonitor
  | error
  | createdFile
  | modifiedFile
  | deletedFile
  | info
  | scannerEv
deriving DecidableEq, Repr

/-- The observer-side shared state touched after a scan: the watch cache, the
`files_got` counter and the diagnostic log (most-recent-first). -/
structure ObsScanState where
  watch : WatchMap
  files_got : Nat
  logs : List MonitorEventType
deriving DecidableEq, Repr

/-- Source: the tail of the scan branch in `LogObserver::inner_monitor`
(lines 380–417): the collected batch is handed to
`registry::process_paths(paths).await.unwrap()`; only if that unwrap does not
panic does the code commit `last_read_pos := file_size` via
`set_file_watchinfo`, log the `ModifiedFile` bytes-read event, and bump
`files_got` by the batch size.  `Except.error` models the worker panic. -/
def sinkAndCommit (st : ObsScanState) (p : String) (fsize : Nat)
    (batchLen : Nat) (sinkRes : Except String Unit) : Except String ObsScanState :=
  match sinkRes with
  | .error e => .error e
  | .ok _ =>
    .ok
      { watch := (set_file_watchinfo st.watch p ⟨fsize, fsize⟩).1
        files_got := st.files_got + batchLen
        logs := .modifiedFile :: st.logs }

/-! ## Diagnostic event buffer (`wrap_list.rs`) -/

/-- `WrapList`: `raw_list` holds the diagnostic records most-recent-first
(entries modelled as opaque `Nat` ids); `list_len` tracks the length of the
rendered `list` deque, which the code keeps in lockstep and whose length the
eviction test reads; `wrap_len` is the render wrap width, `None` until the
widget is first rendered.  Note `WrapList::new(capacity)` only calls
`VecDeque::with_capacity` — the capacity argument is not stored anywhere. -/
structure WrapListM where
  raw_list : List Nat
  list_len : Nat
  wrap_len : Option Nat
deriving DecidableEq, Repr

/-- Source: `WrapList::new(capacity)` — the argument only preallocates. -/
def WrapListM.new (_capacity : Nat) : WrapListM :=
  { raw_list := [], list_len := 0, wrap_len := none }

/-- Source: `WrapList::add_raw_item` followed by the `add_item` it calls:
if `list.len() == wrap_len.unwrap_or(500)` the oldest raw entry is popped;
the new entry is pushed at the front; `add_item` then grows the rendered list
and trims it back while it exceeds `wrap_len.unwrap_or(500)`. -/
def WrapListM.add_raw_item (w : WrapListM) (item : Nat) : WrapListM :=
  let max_len := w.wrap_len.getD 500
  let raw1 := if w.list_len == max_len then w.raw_list.dropLast else w.raw_list
  let raw2 := item :: raw1
  let l1 := w.list_len + 1
  let l2 := if l1 > max_len then l1 - 1 else l1
  { raw_list := raw2, list_len := l2, wrap_len := w.wrap_len }

/-! ## Join-versus-race in the monitor loop (`inner_monitor`, C6) -/

/-- One outcome of `rx.recv_timeout(Duration::from_millis(500))` in the
`iterate_future` loop of `LogObserver::inner_monitor`. -/
inductive RecvOutcome where
  | timeout
  | disconnected
  | modifyEvent
  | otherEvent
deriving DecidableEq, Repr

/-- The `should_stop_future` sub-activity: it polls the shared status and
completes exactly when the status it reads is `Stopped`. -/
def pollStopExits (stopRequested : Bool) : Bool :=
  stopRequested

/-- Whether the `iterate_future` loop exits within a given finite trace of
channel outcomes, with the shared status fixed at `Stopped` iff
`stopRequested`.  Faithful to the source: `Timeout => continue`, other channel
errors break, non-modify events are ignored, and the status is consulted
*only inside the Modify branch* (`if ... status == Stopped { break 'outer }`). -/
def iterateExits (stopRequested : Bool) : List RecvOutcome → Bool
  | [] => false
  | o :: rest =>
    match o with
    | .timeout => iterateExits stopRequested rest
    | .disconnected => true
    | .modifyEvent => if stopRequested then true else iterateExits stopRequested rest
    | .otherEvent => iterateExits stopRequested rest

/-- Source: `futures::join!(should_stop_future, iterate_future)` — the
iteration of `inner_monitor` completes only when *both* sub-activities have
completed. -/
def joinCompletes (stopRequested : Bool) (trace : List RecvOutcome) : Bool :=
  pollStopExits stopRequested && iterateExits stopRequested trace

/-- Modelled from the spec: the race combination the spec prescribes —
whichever sub-activity completes first ends the iteration. -/
def raceCompletes (stopRequested : Bool) (trace : List RecvOutcome) : Bool :=
  pollStopExits stopRequested || iterateExits stopRequested trace

/-! ## Start/stop guards (`log_observer.rs`, `dir_scanner.rs`) -/

/-- `MonitorStatus` of the log observer. -/
inductive MonitorStatus where
  | running
  | stopped
  | paused
  | error
  | finished
deriving DecidableEq, Repr

/-- The observer control state `start_monitor` reads and writes: the status
and the diagnostic log (most-recent-first, kinds only). -/
structure ObsCtl where
  status : MonitorStatus
  logs : List MonitorEventType
deriving DecidableEq, Repr

/-- Source: the synchronous part of `LogObserver::start_monitor`, abstracted
over whether the watched path exists.  `some` carries the new control state
and whether a worker thread was spawned; `none` models a call that never
returns.  A missing path logs an `Error` (no guard is held there) and
returns.  Otherwise the code takes the guard `let ss = shared_state.lock()`,
and in the already-`Running` branch invokes `log!` — which re-locks the same
non-reentrant `std::sync::Mutex` while `ss` is still live (it is dropped only
at line 251) — so that branch self-deadlocks: no `Error` event is appended
and the call never returns (`none`).  In the remaining case the guard is
dropped, the status becomes `Running`, the worker is spawned and an `Info`
event is logged. -/
def start_monitor (pathExists : Bool) (st : ObsCtl) : Option (ObsCtl × Bool) :=
  if !pathExists then some ({ st with logs := .error :: st.logs }, false)
  else if st.status == .running then none
  else some ({ status := .running, logs := .info :: st.logs }, true)

/-- `ProgressStatus` of the directory scanner. -/
inductive RunKind where
  | periodic
  | once
deriving DecidableEq, Repr

inductive ProgressStatus where
  | running (k : RunKind)
  | stopping
  | stopped
  | finished
  | failed
deriving DecidableEq, Repr

/-- `DirScannerEventKind`. -/
inductive DirScannerEventKind where
  | start
  | stop
  | complete
  | error
  | info
  | dbInfo
deriving DecidableEq, Repr

/-- The scanner control state (`ScSharedState`): status, diagnostic log kinds
(most-recent-first) and the periodic scan counter. -/
structure ScanCtl where
  status : ProgressStatus
  logs : List DirScannerEventKind
  periodic_scan_count : Nat
deriving DecidableEq, Repr

/-- Source: the synchronous part of `DirScanner::start_scanner`.  A missing
path, a `Running(_)` status and a `Stopping` status each log one `Error` and
spawn nothing; otherwise status becomes `Running(Once)`, the worker is spawned
and a `Start` event logged. -/
def start_scanner (pathExists : Bool) (st : ScanCtl) : ScanCtl × Bool :=
  if !pathExists then ({ st with logs := .error :: st.logs }, false)
  else
    match st.status with
    | .running _ => ({ st with logs := .error :: st.logs }, false)
    | .stopping => ({ st with logs := .error :: st.logs }, false)
    | _ => ({ st with status := .running .once, logs := .start :: st.logs }, true)

/-- Source: the synchronous part of `DirScanner::start_periodic_scan`: a
missing path or a `Running(_)` status logs one `Error` and spawns nothing;
otherwise the status becomes `Running(Periodic)` and the scan thread is
spawned (its own loop does all further logging). -/
def start_periodic_scan (pathExists : Bool) (st : ScanCtl) : ScanCtl × Bool :=
  if !pathExists then ({ st with logs := .error :: st.logs }, false)
  else
    match st.status with
    | .running _ => ({ st with logs := .error :: st.logs }, false)
    | _ => ({ st with status := .running .periodic }, true)

/-- Source: the synchronous part of `DirScanner::stop_periodic_scan`: when the
status is already `Stopped` or `Stopping` it logs one `Error` and changes
nothing else; otherwise it sets the status to `Stopping` and returns at once
(a detached watcher future logs the `Stop` event only after the scan loop
itself has moved the status to `Stopped`). -/
def stop_periodic_scan (st : ScanCtl) : ScanCtl :=
  if st.status == .stopped || st.status == .stopping then
    { st with logs := .error :: st.logs }
  else { st with status := .stopping }

/-- Source: one sub-interval status check of the `start_periodic_scan` loop
(both the sleep sub-loop and the cycle head behave alike): if the status is no
longer `Running(Periodic)` the loop sets `Stopped`, logs a `Stop` event and
breaks; otherwise it carries on unchanged. -/
def periodic_check_step (st : ScanCtl) : ScanCtl :=
  if st.status == .running .periodic then st
  else { st with status := .stopped, logs := .stop :: st.logs }

/-- The `IndexMap` key-uniqueness invariant of the watch cache. -/
def keysNodup (m : WatchMap) : Prop :=
  (m.map Prod.fst).Nodup

instance (m : WatchMap) : Decidable (keysNodup m) := by
  unfold keysNodup
  infer_instance

/-! # Theorems -/

/-! ## Helper lemmas -/

theorem isPrefixOf_true_iff (l₁ : List Char) :
    ∀ l₂ : List Char, l₁.isPrefixOf l₂ = true ↔ l₁ <+: l₂ := by
  induction l₁ with
  | nil =>
    intro l₂
    simp [List.nil_prefix]
  | cons a t ih =>
    intro l₂
    cases l₂ with
    | nil => simp
    | cons b u => simp [List.isPrefixOf, List.cons_prefix_cons, ih]

theorem afterFirst_isSome_iff (pat : List Char) :
    ∀ s : List Char, (afterFirst pat s).isSome ↔ pat <:+: s := by
  intro s
  induction s with
  | nil =>
    by_cases h : pat = []
    · subst h
      simp [afterFirst]
    · simp [afterFirst, List.isEmpty_iff, h, List.infix_nil]
  | cons c t ih =>
    by_cases h : pat.isPrefixOf (c :: t)
    · simp [afterFirst, h]
      exact ((isPrefixOf_true_iff pat (c :: t)).mp h).isInfix
    · have hnp : ¬ pat <+: (c :: t) :=
        fun hc => h ((isPrefixOf_true_iff pat (c :: t)).mpr hc)
      simp [afterFirst, h, ih, List.infix_cons_iff, hnp]

theorem scanEntries_eq_find (path : List Char) :
    ∀ entries : List MapEntry,
      scanEntries path entries =
        (entries.find? (matchPredB path)).map
          (fun e => e.toVal ++ trimStartMatches e.fromVal path) := by
  intro entries
  induction entries with
  | nil => rfl
  | cons e rest ih =>
    by_cases hk : e.key = defaultKey
    · have hp : matchPredB path e = false := by
        simp [matchPredB, hk]
      simp [scanEntries, hk, List.find?, hp, ih]
    · by_cases h1 : e.fromVal.isPrefixOf path
      · by_cases h2 : e.fromVal = []
        · have hp : matchPredB path e = false := by
            simp [matchPredB, h2]
          simp [scanEntries, List.find?, hk, h1, h2, hp, ih]
        · have hp : matchPredB path e = true := by
            simp [matchPredB, hk, h1, h2]
          simp [scanEntries, List.find?, hk, h1, h2, hp]
      · have hp : matchPredB path e = false := by
          simp [matchPredB, h1]
        simp [scanEntries, List.find?, hk, h1, hp, ih]

theorem getInfo_cons (kv : String × FileWatchInfo) (rest : WatchMap) (q : String) :
    getInfo (kv :: rest) q = if kv.1 == q then some kv.2 else getInfo rest q := by
  by_cases h : kv.1 == q <;> simp [getInfo, List.find?, h]

theorem containsKey_eq_isSome (m : WatchMap) (q : String) :
    containsKey m q = (getInfo m q).isSome := by
  induction m with
  | nil => rfl
  | cons kv rest ih =>
    by_cases h : kv.1 == q
    · simp [containsKey, getInfo_cons, h]
    · simpa [containsKey, getInfo_cons, h] using ih

theorem containsKey_iff_mem_keys (m : WatchMap) (q : String) :
    containsKey m q = true ↔ q ∈ m.map Prod.fst := by
  induction m with
  | nil => simp [containsKey]
  | cons kv rest ih =>
    by_cases h : kv.1 = q
    · simp [containsKey, h]
    · have hb : (kv.1 == q) = false := by simp [h]
      simp only [containsKey, List.any_cons, hb, Bool.false_or, List.map_cons,
        List.mem_cons]
      rw [← containsKey]
      constructor
      · intro hc
        exact Or.inr (ih.mp hc)
      · rintro (hc | hc)
        · exact absurd hc.symm h
        · exact ih.mpr hc

theorem getInfo_some_mem (m : WatchMap) (q : String) (j : FileWatchInfo)
    (h : getInfo m q = some j) : q ∈ m.map Prod.fst := by
  rw [← containsKey_iff_mem_keys, containsKey_eq_isSome, h]
  rfl

theorem imInsert_get_self (m : WatchMap) (p : String) (v : FileWatchInfo) :
    getInfo (imInsert m p v).1 p = some v := by
  induction m with
  | nil => simp [imInsert, getInfo, List.find?]
  | cons kv rest ih =>
    by_cases h : kv.1 == p
    · simp [imInsert, h, getInfo_cons]
    · simp [imInsert, h, getInfo_cons, ih]

theorem imInsert_get_ne (m : WatchMap) (p : String) (v : FileWatchInfo)
    (q : String) (hq : q ≠ p) :
    getInfo (imInsert m p v).1 q = getInfo m q := by
  have hpq : (p == q) = false := beq_eq_false_iff_ne.mpr (Ne.symm hq)
  induction m with
  | nil => simp [imInsert, getInfo_cons, hpq, getInfo]
  | cons kv rest ih =>
    by_cases h : kv.1 == p
    · have hkp : kv.1 = p := by simpa using h
      simp [imInsert, h, getInfo_cons, hpq, hkp]
    · simp [imInsert, h, getInfo_cons, ih]

theorem imInsert_append_of_not_contains (m : WatchMap) (p : String)
    (v : FileWatchInfo) (h : containsKey m p = false) :
    (imInsert m p v).1 = m ++ [(p, v)] := by
  induction m with
  | nil => rfl
  | cons kv rest ih =>
    simp only [containsKey, List.any_cons, Bool.or_eq_false_iff] at h
    rw [← containsKey] at h
    simp [imInsert, h.1, ih h.2]

theorem imInsert_length_of_contains (m : WatchMap) (p : String)
    (v : FileWatchInfo) (h : containsKey m p = true) :
    (imInsert m p v).1.length = m.length := by
  induction m with
  | nil => simp [containsKey] at h
  | cons kv rest ih =>
    by_cases hk : kv.1 == p
    · simp [imInsert, hk]
    · simp only [containsKey, List.any_cons, hk, Bool.false_or] at h
      rw [← containsKey] at h
      simp [imInsert, hk, ih h]

theorem imInsert_keys (m : WatchMap) (p : String) (v : FileWatchInfo) :
    (imInsert m p v).1.map Prod.fst =
      if containsKey m p then m.map Prod.fst else m.map Prod.fst ++ [p] := by
  induction m with
  | nil => simp [imInsert, containsKey]
  | cons kv rest ih =>
    by_cases hk : kv.1 == p
    · have hkp : kv.1 = p := by simpa using hk
      have hc : containsKey (kv :: rest) p = true := by simp [containsKey, hk]
      simp [imInsert, hk, hc, hkp]
    · have hcc : containsKey (kv :: rest) p = containsKey rest p := by
        simp [containsKey, hk]
      by_cases hc : containsKey rest p <;> simp [imInsert, hk, hcc, hc, ih]

theorem containsKey_drop_one (m : WatchMap) (p : String)
    (h : containsKey m p = false) : containsKey (m.drop 1) p = false := by
  cases m with
  | nil => rfl
  | cons kv rest =>
    simp only [containsKey, List.any_cons, Bool.or_eq_false_iff] at h
    simpa [containsKey] using h.2

theorem getInfo_drop_one (m : WatchMap) (q : String) (j : FileWatchInfo)
    (hnd : keysNodup m) (h : getInfo (m.drop 1) q = some j) :
    getInfo m q = some j := by
  cases m with
  | nil => simpa using h
  | cons kv rest =>
    simp only [List.drop_succ_cons, List.drop_zero] at h
    have hmem : q ∈ rest.map Prod.fst := getInfo_some_mem rest q j h
    have hnd2 : kv.1 ∉ rest.map Prod.fst ∧ (rest.map Prod.fst).Nodup := by
      simpa [keysNodup] using hnd
    have hne : kv.1 ≠ q := fun hc => hnd2.1 (hc ▸ hmem)
    simp [getInfo_cons, hne, h]

theorem update_get_self (m : WatchMap) (p : String) (fsize maxW : Nat) :
    getInfo (update_file_watchinfo m p fsize maxW).1 p =
      some ⟨((getInfo m p).map FileWatchInfo.last_read_pos).getD 0, fsize⟩ := by
  unfold update_file_watchinfo
  cases h : getInfo m p <;> simp [h, imInsert_get_self]

theorem update_get_ne (m : WatchMap) (p q : String) (fsize maxW : Nat)
    (j : FileWatchInfo) (hq : q ≠ p) (hnd : keysNodup m)
    (hj : getInfo (update_file_watchinfo m p fsize maxW).1 q = some j) :
    getInfo m q = some j := by
  unfold update_file_watchinfo at hj
  rw [imInsert_get_ne _ _ _ _ hq] at hj
  by_cases hc : ¬ containsKey m p ∧ m.length ≥ maxW
  · rw [if_pos hc] at hj
    exact getInfo_drop_one m q j hnd hj
  · rwa [if_neg hc] at hj

theorem update_pos_mono (m : WatchMap) (p q : String) (fsize maxW : Nat)
    (i j : FileWatchInfo) (hnd : keysNodup m) (hi : getInfo m q = some i)
    (hj : getInfo (update_file_watchinfo m p fsize maxW).1 q = some j) :
    i.last_read_pos ≤ j.last_read_pos := by
  by_cases hq : q = p
  · subst hq
    rw [update_get_self, hi] at hj
    have : j = ⟨i.last_read_pos, fsize⟩ := by
      injection hj with h
      exact h.symm
    simp [this]
  · have := update_get_ne m p q fsize maxW j hq hnd hj
    rw [hi] at this
    injection this with h
    simp [← h]

theorem update_length_le (m : WatchMap) (p : String) (fsize maxW : Nat)
    (hmax : 1 ≤ maxW) (hm : m.length ≤ maxW) :
    (update_file_watchinfo m p fsize maxW).1.length ≤ maxW := by
  unfold update_file_watchinfo
  by_cases hc : containsKey m p
  · rw [if_neg (by simp [hc])]
    rw [imInsert_length_of_contains m p _ hc]
    exact hm
  · by_cases hlen : m.length ≥ maxW
    · rw [if_pos ⟨by simp [hc], hlen⟩]
      rw [imInsert_append_of_not_contains _ _ _
        (containsKey_drop_one m p (by simpa using hc))]
      simp only [List.length_append, List.length_drop, List.length_singleton]
      omega
    · rw [if_neg (by intro h; exact hlen h.2)]
      rw [imInsert_append_of_not_contains _ _ _ (by simpa using hc)]
      simp only [List.length_append, List.length_singleton]
      omega

theorem upsert_foldl_length_le (maxW : Nat) (hmax : 1 ≤ maxW) :
    ∀ (evs : List (String × Nat)) (m : WatchMap), m.length ≤ maxW →
      (evs.foldl (fun m pe =>
        (update_file_watchinfo m pe.1 pe.2 maxW).1) m).length ≤ maxW := by
  intro evs
  induction evs with
  | nil => exact fun m hm => hm
  | cons pe rest ih =>
    intro m hm
    exact ih _ (update_length_le m pe.1 pe.2 maxW hmax hm)

theorem update_keysNodup (m : WatchMap) (p : String) (fsize maxW : Nat)
    (hnd : keysNodup m) : keysNodup (update_file_watchinfo m p fsize maxW).1 := by
  unfold update_file_watchinfo
  by_cases hev : ¬ containsKey m p = true ∧ m.length ≥ maxW
  · rw [if_pos hev]
    have hc1 : containsKey (m.drop 1) p = false :=
      containsKey_drop_one m p (by simpa using hev.1)
    have hnd1 : ((m.drop 1).map Prod.fst).Nodup :=
      List.Nodup.sublist (List.Sublist.map Prod.fst (List.drop_sublist 1 m)) hnd
    have hnotin : p ∉ (m.drop 1).map Prod.fst := by
      intro hmem
      rw [← containsKey_iff_mem_keys, hc1] at hmem
      exact Bool.false_ne_true hmem
    unfold keysNodup
    rw [imInsert_keys, if_neg (by rw [hc1]; exact Bool.false_ne_true),
      List.nodup_append]
    exact ⟨hnd1, List.nodup_singleton p,
      fun a ha hb => hnotin ((List.mem_singleton.mp hb) ▸ ha)⟩
  · rw [if_neg hev]
    by_cases hc : containsKey m p
    · unfold keysNodup
      rw [imInsert_keys, if_pos hc]
      exact hnd
    · have hnotin : p ∉ m.map Prod.fst := by
        intro hmem
        rw [← containsKey_iff_mem_keys] at hmem
        exact hc hmem
      unfold keysNodup
      rw [imInsert_keys, if_neg (by simpa using hc), List.nodup_append]
      exact ⟨hnd, List.nodup_singleton p,
        fun a ha hb => hnotin ((List.mem_singleton.mp hb) ▸ ha)⟩

theorem handle_eq_amended (entries : List MapEntry) (raw : List Char) :
    handle_pathstring entries raw = translate_amended entries raw := by
  simp only [handle_pathstring, translate_amended, scanEntries_eq_find]
  cases h : entries.find? (matchPredB (normalizePath raw)) <;> simp [h]

theorem perm_eq_of_length_le_one {α : Type} {l₁ l₂ : List α}
    (h : l₁.Perm l₂) (hlen : l₁.length ≤ 1) : l₁ = l₂ := by
  cases l₁ with
  | nil => exact (List.nil_perm.mp h).symm
  | cons a t =>
    cases t with
    | nil => exact (List.perm_singleton.mp h.symm).symm
    | cons b u => simp at hlen

theorem handleModify_some_eq (m : WatchMap) (p : String)
    (fsize maxW : Nat) (stopped : Bool) :
    handleModify m p (some fsize) maxW stopped =
      some
        (if stopped then
          ((update_file_watchinfo m p fsize maxW).1, false,
            (⟨((getInfo m p).map FileWatchInfo.last_read_pos).getD 0, fsize⟩ :
              FileWatchInfo))
        else if ((getInfo m p).map FileWatchInfo.last_read_pos).getD 0 < fsize then
          ((set_file_watchinfo (update_file_watchinfo m p fsize maxW).1 p
              ⟨fsize, fsize⟩).1, true,
            ⟨((getInfo m p).map FileWatchInfo.last_read_pos).getD 0, fsize⟩)
        else
          ((update_file_watchinfo m p fsize maxW).1, false,
            ⟨((getInfo m p).map FileWatchInfo.last_read_pos).getD 0, fsize⟩)) := by
  simp only [handleModify]
  rw [update_get_self]
  cases stopped with
  | true => simp
  | false =>
    by_cases h : ((getInfo m p).map FileWatchInfo.last_read_pos).getD 0 < fsize <;>
      simp [h]

/-! ## Claims -/

/-- C1, counterexample: with the single non-default table entry
`{key := "k", from := "ab", to := "X"}` and raw path `"abab"`, the code
(`handle_pathstring`, which strips the matched prefix with
`trim_start_matches`) produces `"X"`, while the claim's single prefix
substitution produces `"Xab"`. -/
theorem c1_counterexample :
    handle_pathstring [⟨"k".toList, "ab".toList, "X".toList⟩] "abab".toList
        = "X".toList ∧
    translate_claim [⟨"k".toList, "ab".toList, "X".toList⟩] "abab".toList
        = "Xab".toList ∧
    handle_pathstring [⟨"k".toList, "ab".toList, "X".toList⟩] "abab".toList
        ≠ translate_claim [⟨"k".toList, "ab".toList, "X".toList⟩] "abab".toList := by
  refine ⟨by decide, by decide, by decide⟩

/-- C1 (amended): a line yields an extracted record iff it contains the
literal marker `"STOR 226 "`; the record is the translation of the text after
the first marker occurrence with trailing whitespace removed; and the
translation equals the spec-worded `translate_amended`, in which the matched
entry's `from` value is stripped repeatedly from the front (every leading
repetition removed, as `trim_start_matches` does) rather than substituted
once, both for the first matching non-default entry and for the `default`
fallback, with the path returned unchanged when neither exists. -/
theorem c1_amended_translation :
    ∀ (entries : List MapEntry) (line rawPath : List Char),
      ((extractRecord entries line).isSome ↔ storMarker <:+: line) ∧
      (extractRecord entries line =
        (afterFirst storMarker line).map
          fun rest => handle_pathstring entries (trimEndWS rest)) ∧
      handle_pathstring entries rawPath = translate_amended entries rawPath := by
  intro entries line rawPath
  refine ⟨?_, ?_, handle_eq_amended entries rawPath⟩
  · rw [← afterFirst_isSome_iff storMarker line]
    simp [extractRecord, extractLine]
  · simp [extractRecord, extractLine, Option.map_map]
    rfl

/-- C7, counterexample: the two iteration orders of the same two-entry table
`{"a": ["ab", "X"], "b": ["a", "Y"]}` (a `HashMap`, whose iteration order is
not specified and is re-randomized on every `load_config()` call inside
`handle_pathstring`) translate the same raw path `"ab"` to different outputs
(`"X"` versus `"Yb"`), refuting determinism and order-stability relative to
the configured table when several prefixes match. -/
theorem c7_counterexample :
    List.Perm
        [(⟨"a".toList, "ab".toList, "X".toList⟩ : MapEntry),
          ⟨"b".toList, "a".toList, "Y".toList⟩]
        [⟨"b".toList, "a".toList, "Y".toList⟩,
          ⟨"a".toList, "ab".toList, "X".toList⟩] ∧
    handle_pathstring
        [⟨"a".toList, "ab".toList, "X".toList⟩,
          ⟨"b".toList, "a".toList, "Y".toList⟩] "ab".toList ≠
      handle_pathstring
        [⟨"b".toList, "a".toList, "Y".toList⟩,
          ⟨"a".toList, "ab".toList, "X".toList⟩] "ab".toList := by
  exact ⟨List.Perm.swap _ _ _, by decide⟩

/-- C7 (amended): for a fixed iteration order the translation is a function
of the path and that order, and the first matching entry in iteration order
wins; moreover, when at most one non-default entry matches the path and the
table has at most one `default` entry (as a `HashMap` guarantees), the result
is independent of the iteration order — but with several matching overlapping
prefixes the applied entry depends on the `HashMap`'s unspecified iteration
order, not on a configured table order (see the counterexample). -/
theorem c7_amended_translation_order :
    (∀ (entries : List MapEntry) (raw : List Char) (e : MapEntry),
      (entries.filter (matchPredB (normalizePath raw))).head? = some e →
      handle_pathstring entries raw =
        e.toVal ++ trimStartMatches e.fromVal (normalizePath raw)) ∧
    (∀ (t₁ t₂ : List MapEntry) (raw : List Char),
      t₁.Perm t₂ →
      (t₁.filter (matchPredB (normalizePath raw))).length ≤ 1 →
      (t₁.filter (fun e => e.key == defaultKey)).length ≤ 1 →
      handle_pathstring t₁ raw = handle_pathstring t₂ raw) := by
  constructor
  · intro entries raw e hfirst
    rw [List.filter_head?] at hfirst
    simp [handle_pathstring, scanEntries_eq_find, hfirst]
  · intro t₁ t₂ raw hperm hmatch hdefault
    have hfm : t₁.filter (matchPredB (normalizePath raw)) =
        t₂.filter (matchPredB (normalizePath raw)) :=
      perm_eq_of_length_le_one (hperm.filter _) hmatch
    have hfd : t₁.filter (fun e => e.key == defaultKey) =
        t₂.filter (fun e => e.key == defaultKey) :=
      perm_eq_of_length_le_one (hperm.filter _) hdefault
    have h1 : List.find? (matchPredB (normalizePath raw)) t₁ =
        List.find? (matchPredB (normalizePath raw)) t₂ := by
      rw [← List.filter_head?, ← List.filter_head?, hfm]
    have h2 : List.find? (fun e => e.key == defaultKey) t₁ =
        List.find? (fun e => e.key == defaultKey) t₂ := by
      rw [← List.filter_head?, ← List.filter_head?, hfd]
    simp only [handle_pathstring, getDefault, scanEntries_eq_find, h1, h2]

/-- Witness for the amended C7 at concrete inputs: the table
`[{"k": ["ab", "X"]}, {"default": ["", "D"]}]` has exactly one matching entry
and one default entry for path `"abab"`; the first part computes the
translation, the second makes it invariant under the swapped iteration
order. -/
theorem c7_amended_translation_order_witness :
    handle_pathstring
        [(⟨"k".toList, "ab".toList, "X".toList⟩ : MapEntry),
          ⟨"default".toList, "".toList, "D".toList⟩] "abab".toList
        = "X".toList ∧
    handle_pathstring
        [(⟨"k".toList, "ab".toList, "X".toList⟩ : MapEntry),
          ⟨"default".toList, "".toList, "D".toList⟩] "abab".toList =
      handle_pathstring
        [⟨"default".toList, "".toList, "D".toList⟩,
          (⟨"k".toList, "ab".toList, "X".toList⟩ : MapEntry)] "abab".toList := by
  constructor
  · rw [c7_amended_translation_order.1
      [(⟨"k".toList, "ab".toList, "X".toList⟩ : MapEntry),
        ⟨"default".toList, "".toList, "D".toList⟩] "abab".toList
      ⟨"k".toList, "ab".toList, "X".toList⟩ (by decide)]
    decide
  · exact c7_amended_translation_order.2
      [(⟨"k".toList, "ab".toList, "X".toList⟩ : MapEntry),
        ⟨"default".toList, "".toList, "D".toList⟩]
      [⟨"default".toList, "".toList, "D".toList⟩,
        (⟨"k".toList, "ab".toList, "X".toList⟩ : MapEntry)]
      "abab".toList (List.Perm.swap _ _ _) (by decide) (by decide)

/-- C2: `inner_monitor` unwraps the sink result
(`registry::process_paths(paths).await.unwrap()`), so a failed batch upsert
panics the worker thread: the call yields no post-state at all — in
particular `files_got` is not incremented, no `Error` diagnostic event is
logged, the new read offset is not committed, and the worker does not proceed
to the next event.  This contradicts the claim (log an `Error`, keep
counting, continue); the spec is the evident intent and the unwrap a slip. -/
theorem c2_sink_failure_panics :
    ∀ (st : ObsScanState) (p : String) (fsize batchLen : Nat) (e : String),
      sinkAndCommit st p fsize batchLen (Except.error e) = Except.error e ∧
      ∀ st2 : ObsScanState,
        sinkAndCommit st p fsize batchLen (Except.error e) ≠ Except.ok st2 := by
  intro st p fsize batchLen e
  exact ⟨rfl, fun st2 h => by simp [sinkAndCommit] at h⟩

/-- C5: the construction-time capacity does not bound the diagnostic buffer.
`WrapList::new(2)` followed by three `add_raw_item` pushes (before any render
sets `wrap_len`) leaves three entries resident — the eviction threshold is
`wrap_len.unwrap_or(500)`, the render wrap width, not the constructor
argument, which is only a `VecDeque::with_capacity` preallocation.  The
entries are kept most-recent-first as claimed. -/
theorem c5_capacity_ignored :
    (((WrapListM.new 2).add_raw_item 1).add_raw_item 2).add_raw_item 3 =
      { raw_list := [3, 2, 1], list_len := 3, wrap_len := none } ∧
    ¬ ((((WrapListM.new 2).add_raw_item 1).add_raw_item 2).add_raw_item
        3).raw_list.length ≤ 2 := by
  exact ⟨by decide, by decide⟩

/-- C6: with a stop requested (the status-poll sub-activity ready to
complete) and a notification channel that only times out, the
`futures::join!` combination used by `inner_monitor` never completes within
any number of loop iterations — the event loop consults the status only
inside the `Modify` branch — whereas the race combination the spec prescribes
completes at once.  The worker therefore does not terminate in bounded time;
the spec flags join-where-race-was-intended as the known hazard, so the code
is the bug. -/
theorem c6_join_never_completes :
    ∀ n : Nat,
      joinCompletes true (List.replicate n RecvOutcome.timeout) = false ∧
      raceCompletes true (List.replicate n RecvOutcome.timeout) = true := by
  have hiter : ∀ n : Nat,
      iterateExits true (List.replicate n RecvOutcome.timeout) = false := by
    intro n
    induction n with
    | zero => rfl
    | succ k ih => simpa [List.replicate_succ, iterateExits] using ih
  intro n
  exact ⟨by simp [joinCompletes, pollStopExits, hiter n],
    by simp [raceCompletes, pollStopExits]⟩

/-- C8, counterexample: calling `start_monitor` on an already-`Running`
observer (with an existing watched path) does not return at all — the
already-`Running` branch holds the guard `ss` across `log!`'s second
`lock()` of the same non-reentrant mutex, a self-deadlock — so in particular
it does not return the claimed no-op state with exactly one `Error` event
appended. -/
theorem c8_counterexample :
    start_monitor true ⟨.running, []⟩ = none ∧
    start_monitor true ⟨.running, []⟩ ≠
      some (⟨.running, [.error]⟩, false) := by
  exact ⟨rfl, by decide⟩

/-- C8 (amended): starting an already-`Running` scanner (`start_scanner`) or
periodic scanner (`start_periodic_scan`) is a no-op that leaves the status
unchanged, spawns no worker, and appends exactly one `Error` diagnostic
event.  Starting an already-`Running` observer (`start_monitor`) with an
existing watched path, however, never returns: the guard held on the shared
state is re-locked by the log macro on the same non-reentrant mutex, so no
`Error` event is appended, no worker is spawned, and no state is produced;
only the missing-path branch of `start_monitor` (taken before the guard)
still returns with exactly one `Error` appended and no spawn. -/
theorem c8_amended_start_guard :
    (∀ st : ObsCtl, st.status = .running → start_monitor true st = none) ∧
    (∀ st : ObsCtl, start_monitor false st =
      some ({ st with logs := .error :: st.logs }, false)) ∧
    (∀ (pe : Bool) (st : ScanCtl) (k : RunKind), st.status = .running k →
      (start_scanner pe st).1.status = st.status ∧
      (start_scanner pe st).2 = false ∧
      (start_scanner pe st).1.logs = .error :: st.logs) ∧
    (∀ (pe : Bool) (st : ScanCtl) (k : RunKind), st.status = .running k →
      (start_periodic_scan pe st).1.status = st.status ∧
      (start_periodic_scan pe st).2 = false ∧
      (start_periodic_scan pe st).1.logs = .error :: st.logs) := by
  refine ⟨?_, ?_, ?_, ?_⟩
  · intro st h
    simp [start_monitor, h]
  · intro st
    simp [start_monitor]
  · intro pe st k h
    cases pe <;> simp [start_scanner, h]
  · intro pe st k h
    cases pe <;> simp [start_periodic_scan, h]

/-- Witness for the amended C8 at concrete running states. -/
theorem c8_amended_start_guard_witness :
    start_monitor true ⟨.running, []⟩ = none ∧
    (start_scanner true ⟨.running .once, [], 0⟩).2 = false ∧
    (start_periodic_scan true ⟨.running .periodic, [], 0⟩).2 = false :=
  ⟨c8_amended_start_guard.1 ⟨.running, []⟩ rfl,
    (c8_amended_start_guard.2.2.1 true ⟨.running .once, [], 0⟩ .once rfl).2.1,
    (c8_amended_start_guard.2.2.2 true ⟨.running .periodic, [], 0⟩
      .periodic rfl).2.1⟩

/-- C9: `stop_periodic_scan` on a `Stopped` or `Stopping` scanner appends
exactly one `Error` event and changes nothing else; in any other status it
sets the status to `Stopping` and returns at once without logging — the
status right after the call is `Stopping`, not `Stopped` — and it is the
scan loop's own sub-interval check (`periodic_check_step`) that later moves a
`Stopping` scanner to `Stopped` and logs the `Stop` event. -/
theorem c9_stop_periodic :
    (∀ st : ScanCtl, st.status = .stopped ∨ st.status = .stopping →
      stop_periodic_scan st = { st with logs := .error :: st.logs }) ∧
    (∀ st : ScanCtl, st.status ≠ .stopped → st.status ≠ .stopping →
      (stop_periodic_scan st).status = .stopping ∧
      (stop_periodic_scan st).logs = st.logs ∧
      (stop_periodic_scan st).periodic_scan_count = st.periodic_scan_count) ∧
    (∀ st : ScanCtl, st.status = .stopping →
      (periodic_check_step st).status = .stopped ∧
      (periodic_check_step st).logs = .stop :: st.logs) := by
  refine ⟨?_, ?_, ?_⟩
  · intro st h
    rcases h with h | h <;> simp [stop_periodic_scan, h]
  · intro st h1 h2
    have hb : (st.status == ProgressStatus.stopped
        || st.status == ProgressStatus.stopping) = false := by
      simp [h1, h2]
    simp [stop_periodic_scan, hb]
  · intro st h
    simp [periodic_check_step, h]

/-- Witness for C9 at concrete scanner states. -/
theorem c9_stop_periodic_witness :
    stop_periodic_scan ⟨.stopped, [], 0⟩ =
      (⟨.stopped, [.error], 0⟩ : ScanCtl) ∧
    (stop_periodic_scan ⟨.running .periodic, [], 3⟩).status = .stopping ∧
    (periodic_check_step ⟨.stopping, [], 3⟩).status = .stopped :=
  ⟨c9_stop_periodic.1 ⟨.stopped, [], 0⟩ (Or.inl rfl),
    (c9_stop_periodic.2.1 ⟨.running .periodic, [], 3⟩ (by decide) (by decide)).1,
    (c9_stop_periodic.2.2 ⟨.stopping, [], 3⟩ rfl).1⟩

/-- C3, counterexample: with `max_watched = 1`, the handled modify-event
sequence `X(size 10), Y(size 5), X(size 4)` commits `last_read_pos = 10` for
`X` after the first event, but the event on `Y` evicts `X` from the full
cache, and the second event on `X` re-inserts it with `last_read_pos = 0` and
commits `4` — the committed read offset for the watched path `X` decreased
from 10 to 4 across handled modify events. -/
theorem c3_counterexample :
    runModifySeq 1 [("X", 10)] [] = some [("X", ⟨10, 10⟩)] ∧
    runModifySeq 1 [("X", 10), ("Y", 5), ("X", 4)] [] = some [("X", ⟨4, 4⟩)] ∧
    ¬ (10 : Nat) ≤ 4 := by
  exact ⟨by decide, by decide, by decide⟩

/-- C3 (amended): as long as a path stays resident in the watch cache (its
entry present before and after a handled modify event — in particular, for
any sequence of events on that single path), its `last_read_pos` never
decreases; eviction at capacity removes the entry, and re-insertion restarts
it at 0 (see the counterexample).  Moreover the handler scans the file iff
the observer is not stopped and the freshly recomputed `file_size` is
strictly greater than the committed `last_read_pos` (the fresh size and the
prior committed offset are exactly the pair the decision is taken on), and
after a scan `last_read_pos` is set to the observed `file_size`. -/
theorem c3_amended_offsets :
    (∀ (m : WatchMap) (p q : String) (meta : Option Nat) (maxW : Nat)
        (stopped : Bool) (res : WatchMap × Bool × FileWatchInfo)
        (i j : FileWatchInfo),
      keysNodup m →
      handleModify m p meta maxW stopped = some res →
      getInfo m q = some i → getInfo res.1 q = some j →
      i.last_read_pos ≤ j.last_read_pos) ∧
    (∀ (m : WatchMap) (p : String) (fsize maxW : Nat) (stopped : Bool)
        (res : WatchMap × Bool × FileWatchInfo),
      handleModify m p (some fsize) maxW stopped = some res →
      (res.2.1 = true ↔
        stopped = false ∧ res.2.2.last_read_pos < res.2.2.file_size) ∧
      res.2.2.file_size = fsize ∧
      res.2.2.last_read_pos =
        ((getInfo m p).map FileWatchInfo.last_read_pos).getD 0 ∧
      (res.2.1 = true → getInfo res.1 p = some ⟨fsize, fsize⟩)) := by
  constructor
  · intro m p q meta maxW stopped res i j hnd hstep hi hj
    cases meta with
    | none => exact absurd hstep (by simp [handleModify])
    | some fsize =>
      rw [handleModify_some_eq] at hstep
      have hres : res = _ := (Option.some.inj hstep).symm
      cases stopped with
      | true =>
        rw [if_pos rfl] at hres
        rw [hres] at hj
        exact update_pos_mono m p q fsize maxW i j hnd hi hj
      | false =>
        rw [if_neg (by simp)] at hres
        by_cases hlt : ((getInfo m p).map FileWatchInfo.last_read_pos).getD 0 < fsize
        · rw [if_pos hlt] at hres
          rw [hres] at hj
          by_cases hq : q = p
          · subst hq
            rw [set_file_watchinfo, imInsert_get_self] at hj
            have hjv : j = ⟨fsize, fsize⟩ := (Option.some.inj hj).symm
            have hpos : ((getInfo m q).map FileWatchInfo.last_read_pos).getD 0 =
                i.last_read_pos := by
              rw [hi]
              rfl
            rw [hjv]
            exact le_of_lt (hpos ▸ hlt)
          · rw [set_file_watchinfo, imInsert_get_ne _ _ _ _ hq] at hj
            exact update_pos_mono m p q fsize maxW i j hnd hi hj
        · rw [if_neg hlt] at hres
          rw [hres] at hj
          exact update_pos_mono m p q fsize maxW i j hnd hi hj
  · intro m p fsize maxW stopped res hstep
    rw [handleModify_some_eq] at hstep
    have hres : res = _ := (Option.some.inj hstep).symm
    cases stopped with
    | true =>
      rw [if_pos rfl] at hres
      rw [hres]
      simp
    | false =>
      rw [if_neg (by simp)] at hres
      by_cases hlt : ((getInfo m p).map FileWatchInfo.last_read_pos).getD 0 < fsize
      · rw [if_pos hlt] at hres
        rw [hres]
        refine ⟨by simpa using hlt, rfl, rfl, ?_⟩
        intro _
        rw [set_file_watchinfo, imInsert_get_self]
      · rw [if_neg hlt] at hres
        rw [hres]
        simp [hlt]

/-- Witness for the amended C3 at a concrete resident path: cache
`[("X", {pos 2, size 5})]`, modify event on `"X"` with fresh metadata size 7:
the committed offset goes from 2 to 7 (non-decreasing), and the scan commits
`{pos 7, size 7}`. -/
theorem c3_amended_offsets_witness :
    (⟨2, 5⟩ : FileWatchInfo).last_read_pos ≤
      (⟨7, 7⟩ : FileWatchInfo).last_read_pos ∧
    getInfo [("X", (⟨7, 7⟩ : FileWatchInfo))] "X" = some ⟨7, 7⟩ :=
  ⟨c3_amended_offsets.1 [("X", ⟨2, 5⟩)] "X" "X" (some 7) 1 false
      ([("X", ⟨7, 7⟩)], true, ⟨2, 7⟩) ⟨2, 5⟩ ⟨7, 7⟩
      (by decide) (by decide) (by decide) (by decide),
    (c3_amended_offsets.2 [("X", ⟨2, 5⟩)] "X" 7 1 false
      ([("X", ⟨7, 7⟩)], true, ⟨2, 7⟩) (by decide)).2.2.2 rfl⟩

/-- C4, counterexample: with capacity `max_watched = 0`, a single upsert
still leaves one resident entry — `update_file_watchinfo` evicts at most one
entry before inserting, so the bound "never more than `max_watched` entries"
fails for `max_watched = 0`. -/
theorem c4_counterexample :
    upsertSeq 0 [("X", 5)] = [("X", ⟨0, 5⟩)] ∧
    ¬ (upsertSeq 0 [("X", 5)]).length ≤ 0 := by
  exact ⟨by decide, by decide⟩

/-- C4 (amended): for every capacity `max_watched ≥ 1` (the bound fails only
in the degenerate `max_watched = 0` case of the counterexample), any sequence
of upserts leaves at most `max_watched` entries resident; when a new key is
inserted into a full cache, the evicted entry is the head of the
insertion-ordered list — the earliest-inserted entry still present — and the
rest keep their order; an upsert of an existing key preserves its prior
`last_read_pos` while refreshing `file_size`; a new key starts with
`last_read_pos = 0`; and the Scenario-B run (capacity 2, inserts X, Y, Z)
leaves exactly Y and Z. -/
theorem c4_amended_cache_bound :
    (∀ (maxW : Nat) (evs : List (String × Nat)), 1 ≤ maxW →
      (upsertSeq maxW evs).length ≤ maxW) ∧
    (∀ (m : WatchMap) (p : String) (sz maxW : Nat),
      containsKey m p = false → maxW ≤ m.length →
      (update_file_watchinfo m p sz maxW).1 = m.drop 1 ++ [(p, ⟨0, sz⟩)]) ∧
    (∀ (m : WatchMap) (p : String) (sz maxW : Nat) (i : FileWatchInfo),
      getInfo m p = some i →
      getInfo (update_file_watchinfo m p sz maxW).1 p =
        some ⟨i.last_read_pos, sz⟩) ∧
    (∀ (m : WatchMap) (p : String) (sz maxW : Nat),
      getInfo m p = none →
      getInfo (update_file_watchinfo m p sz maxW).1 p = some ⟨0, sz⟩) ∧
    upsertSeq 2 [("X", 1), ("Y", 2), ("Z", 3)] =
      [("Y", ⟨0, 2⟩), ("Z", ⟨0, 3⟩)] := by
  refine ⟨?_, ?_, ?_, ?_, by decide⟩
  · intro maxW evs hmax
    exact upsert_foldl_length_le maxW hmax evs [] (by simp)
  · intro m p sz maxW hc hlen
    have hnone : getInfo m p = none := by
      have := containsKey_eq_isSome m p
      rw [hc] at this
      cases h : getInfo m p with
      | none => rfl
      | some v =>
        rw [h] at this
        exact absurd this.symm (by simp)
    unfold update_file_watchinfo
    rw [hnone, if_pos ⟨by simp [hc], hlen⟩]
    exact imInsert_append_of_not_contains _ _ _ (containsKey_drop_one m p hc)
  · intro m p sz maxW i hi
    rw [update_get_self, hi]
    rfl
  · intro m p sz maxW hnone
    rw [update_get_self, hnone]
    rfl

/-- Witness for the amended C4 at concrete inputs: a two-upsert run under
capacity 1 stays within the bound; a full cache `[("X", {1, 1})]` receiving
the new key `"Y"` evicts the earliest entry `X`; the resident key `"X"` keeps
`last_read_pos = 4` while its size refreshes to 11; a fresh key starts at
offset 0. -/
theorem c4_amended_cache_bound_witness :
    (upsertSeq 1 [("X", 1), ("Y", 2)]).length ≤ 1 ∧
    (update_file_watchinfo [("X", ⟨1, 1⟩)] "Y" 3 1).1 = [("Y", ⟨0, 3⟩)] ∧
    getInfo (update_file_watchinfo [("X", ⟨4, 9⟩)] "X" 11 1).1 "X" =
      some ⟨4, 11⟩ ∧
    getInfo (update_file_watchinfo [] "X" 2 1).1 "X" = some ⟨0, 2⟩ :=
  ⟨c4_amended_cache_bound.1 1 [("X", 1), ("Y", 2)] (by decide),
    c4_amended_cache_bound.2.1 [("X", ⟨1, 1⟩)] "Y" 3 1 (by decide) (by decide),
    c4_amended_cache_bound.2.2.1 [("X", ⟨4, 9⟩)] "X" 11 1 ⟨4, 9⟩ (by decide),
    c4_amended_cache_bound.2.2.2.1 [] "X" 2 1 rfl⟩

/-- C10: when the filesystem metadata read for a modify event's path fails,
handling the notification panics the observer worker — `handleModify`
produces no post-state, no diagnostic event and no skip, because
`update_file_watchinfo` unwraps `std::fs::metadata(path)` and the following
`.get(&path).unwrap()` unwraps the cache lookup. -/
theorem c10_metadata_panics :
    ∀ (m : WatchMap) (p : String) (maxW : Nat) (stopped : Bool),
      handleModify m p none maxW stopped = none := by
  intro m p maxW stopped
  rfl

end OneServer
